import Mathlib

/-!
Verification of the hex-package install tool (Deno implementation `mod.ts`
and node implementation `src/index.ts`).

Strings are modelled as `List Char` (one entry per UTF-16-ish code unit of
the JavaScript string); all functions below are shallow embeddings of the
corresponding TypeScript functions, translated clause by clause.
-/

/-- Str abbreviates the model of a JavaScript string. -/
abbrev Str := List Char

/-- jsSpace models the JavaScript regex class `\s` (restricted to the ASCII
whitespace characters, which are the only ones relevant to the scanned
`mix` output and manifests). -/
def jsSpace (c : Char) : Bool :=
  c = ' ' || c = '\t' || c = '\n' || c = '\r' || c = '\x0b' || c = '\x0c'

/-- isDigitCh models the JavaScript regex class `\d`. -/
def isDigitCh (c : Char) : Bool :=
  '0' ≤ c && c ≤ '9'

/-- span1 matches a nonempty maximal run of characters satisfying `p`
(the semantics of a greedy `p+` regex atom over disjoint follow sets);
it returns the run and the remainder. -/
def span1 (p : Char → Bool) (s : Str) : Option (Str × Str) :=
  match s with
  | [] => none
  | c :: cs => if p c then some (c :: cs.takeWhile p, cs.dropWhile p) else none

/-- dropLit matches the literal `lit` at the head of `s` and returns the
remainder. -/
def dropLit : Str → Str → Option Str
  | [], s => some s
  | _ :: _, [] => none
  | l :: ls, c :: cs => if c = l then dropLit ls cs else none

/-- splitLines models JavaScript `s.split("\n")`. -/
def splitLines : Str → List Str
  | [] => [[]]
  | c :: cs =>
    if c = '\n' then [] :: splitLines cs
    else
      match splitLines cs with
      | l :: ls => (c :: l) :: ls
      | [] => [[c]]

/-- setKey models the JavaScript object assignment `deps[k] = v` on a record
represented as an association list with unique keys kept in insertion
order. -/
def setKey : List (Str × Str) → Str → Str → List (Str × Str)
  | [], k, v => [(k, v)]
  | (k0, v0) :: rest, k, v =>
    if k0 = k then (k0, v) :: rest else (k0, v0) :: setKey rest k v

/-- lookupDep models the JavaScript property read `deps[k]` (absent
properties read as `undefined`, modelled by `none`). -/
def lookupDep : List (Str × Str) → Str → Option Str
  | [], _ => none
  | (k0, v) :: rest, k => if k0 = k then some v else lookupDep rest k

/-- cleanDeno models `nameWithParens.replace(/[()]/g, "")` from `mod.ts`:
every parenthesis is removed. -/
def cleanDeno (s : Str) : Str :=
  s.filter (fun c => !(c = '(' || c = ')'))

/-- removeFirst removes the first occurrence of a character, the semantics
of JavaScript `String.replace` with a plain string pattern. -/
def removeFirst (t : Char) : Str → Str
  | [] => []
  | c :: cs => if c = t then cs else c :: removeFirst t cs

/-- cleanNode models the two `replace` calls of `src/index.ts`: the first
"(" and the first ")" are removed. -/
def cleanNode (s : Str) : Str :=
  removeFirst ')' (removeFirst '(' s)

/-- lockedAtAt attempts the regex `locked at\s+(\S+)\s+(\S+)` at the start
of `s`, returning the two captures (version, name-with-parentheses).  The
greedy runs are deterministic because `\s` and `\S` are disjoint. -/
def lockedAtAt (s : Str) : Option (Str × Str) :=
  match dropLit ("locked at").data s with
  | none => none
  | some r1 =>
    match span1 jsSpace r1 with
    | none => none
    | some (_, r2) =>
      match span1 (fun c => !jsSpace c) r2 with
      | none => none
      | some (ver, r3) =>
        match span1 jsSpace r3 with
        | none => none
        | some (_, r4) =>
          match span1 (fun c => !jsSpace c) r4 with
          | none => none
          | some (nm, _) => some (ver, nm)

/-- searchLockedAt models `line.match(/locked at\s+(\S+)\s+(\S+)/)`:
the leftmost position where the pattern matches wins. -/
def searchLockedAt : Str → Option (Str × Str)
  | [] => none
  | c :: cs =>
    match lockedAtAt (c :: cs) with
    | some r => some r
    | none => searchLockedAt cs

/-- lineEntry is the per-line step of `parseMixExs`: on a match it yields
the record entry (parenthesis-stripped name, version). -/
def lineEntry (clean : Str → Str) (line : Str) : Option (Str × Str) :=
  match searchLockedAt line with
  | some (ver, nm) => some (clean nm, ver)
  | none => none

/-- parseStep is the body of the `forEach` loop of `parseMixExs`: a
matching line stores its entry, a non-matching line leaves the record
untouched. -/
def parseStep (clean : Str → Str) (deps : List (Str × Str)) (line : Str) : List (Str × Str) :=
  match lineEntry clean line with
  | some kv => setKey deps kv.1 kv.2
  | none => deps

/-- parseLocks is the parsing core of `parseMixExs`: split the command
output into lines, and for each line matching the `locked at` pattern
record name → version; non-matching lines are skipped. -/
def parseLocks (clean : Str → Str) (out : Str) : List (Str × Str) :=
  (splitLines out).foldl (parseStep clean) []

/-- buildRecord folds a list of entries into a record via `setKey`. -/
def buildRecord (entries : List (Str × Str)) : List (Str × Str) :=
  entries.foldl (fun deps kv => setKey deps kv.1 kv.2) []

/-- ExecError models the JavaScript error object thrown by the external
command invocation; `stderr` is `none` when the error object carries no
captured standard-error text (a property read yielding `undefined`/`null`,
as happens when the process could not be spawned at all). -/
structure ExecError where
  stderr : Option Str

/-- CmdResult models the outcome of running the external dependency-listing
command: either captured standard output, or a thrown error. -/
inductive CmdResult where
  | success (stdout : Str)
  | failure (e : ExecError)

/-- JsExn models a JavaScript exception escaping a function; `typeError` is
the TypeError raised by calling a method of `undefined`. -/
inductive JsExn where
  | typeError
deriving DecidableEq

/-- parseMixExsDeno embeds `parseMixExs` of `mod.ts`: the `try` block parses
the captured output, and the `catch` block returns the empty record for
every thrown error. -/
def parseMixExsDeno (r : CmdResult) : List (Str × Str) :=
  match r with
  | CmdResult.success out => parseLocks cleanDeno out
  | CmdResult.failure _ => []

/-- parseMixExsNode embeds `parseMixExs` of `src/index.ts`.  Its `catch`
block evaluates `error.stderr.includes("Could not find a Mix.Project")`;
when the error carries no stderr string this member access itself raises a
TypeError that escapes the function, otherwise the block falls through and
returns the empty record. -/
def parseMixExsNode (r : CmdResult) : Except JsExn (List (Str × Str)) :=
  match r with
  | CmdResult.success out => Except.ok (parseLocks cleanNode out)
  | CmdResult.failure e =>
    match e.stderr with
    | some _ => Except.ok []
    | none => Except.error JsExn.typeError

/-- PkgStatus models the `status` string field of `HexPackage`. -/
inductive PkgStatus where
  | upgrade
  | installed
deriving DecidableEq

/-- HexPackage embeds the `HexPackage` interface. -/
structure HexPackage where
  name : Str
  version : Str
  status : Option PkgStatus
  currentVersion : Option Str
deriving DecidableEq

/-- categorizePkg embeds the per-candidate classification step of
`installPackages`.  The JavaScript guard `if (existingDeps[pkg.name])`
tests truthiness, so an empty-string locked version is treated like an
absent entry. -/
def categorizePkg (existingDeps : List (Str × Str)) (pkg : HexPackage) : HexPackage :=
  match lookupDep existingDeps pkg.name with
  | none => pkg
  | some locked =>
    if locked = [] then pkg
    else if locked ≠ pkg.version then
      { pkg with status := some PkgStatus.upgrade, currentVersion := some locked }
    else
      { pkg with status := some PkgStatus.installed, currentVersion := some locked }

/-- semverAt attempts the regex fragment `(\d+\.\d+\.\d+)` at the start of
`s`, returning the capture and the remainder.  The greedy digit runs are
deterministic because a digit can never satisfy the following literal
dot. -/
def semverAt (s : Str) : Option (Str × Str) :=
  match span1 isDigitCh s with
  | none => none
  | some (d1, r1) =>
    match r1 with
    | '.' :: r2 =>
      match span1 isDigitCh r2 with
      | none => none
      | some (d2, r3) =>
        match r3 with
        | '.' :: r4 =>
          match span1 isDigitCh r4 with
          | none => none
          | some (d3, r5) => some (d1 ++ '.' :: d2 ++ '.' :: d3, r5)
        | _ => none
    | _ => none

/-- depTupleAt attempts the upgrade regex
`{:NAME,\s*"(\d+\.\d+\.\d+)"?}` (as built by `new RegExp` in
`addToMixExs`, with the package name spliced in literally) at the start of
`s`.  On success it returns ((matched substring, version capture),
remainder).  The only backtracking point of this pattern is the optional
closing quote, handled by the two-way case below. -/
def depTupleAt (name : Str) (s : Str) : Option ((Str × Str) × Str) :=
  match dropLit ('{' :: ':' :: name ++ [',']) s with
  | none => none
  | some r1 =>
    let sp := r1.takeWhile jsSpace
    match r1.dropWhile jsSpace with
    | '"' :: r3 =>
      match semverAt r3 with
      | none => none
      | some (ver, r4) =>
        match r4 with
        | '"' :: '}' :: rest =>
          some ((('{' :: ':' :: name ++ [',']) ++ sp ++ '"' :: ver ++ ['"', '}'], ver), rest)
        | '}' :: rest =>
          some ((('{' :: ':' :: name ++ [',']) ++ sp ++ '"' :: ver ++ ['}'], ver), rest)
        | _ => none
    | _ => none

/-- depsOpenAt attempts the regex `defp deps do\s*\[\s*` at the start of
`s`, returning (matched substring, remainder). -/
def depsOpenAt (s : Str) : Option (Str × Str) :=
  match dropLit ("defp deps do").data s with
  | none => none
  | some r1 =>
    let sp1 := r1.takeWhile jsSpace
    match r1.dropWhile jsSpace with
    | '[' :: r2 =>
      some (("defp deps do").data ++ sp1 ++ '[' :: r2.takeWhile jsSpace, r2.dropWhile jsSpace)
    | _ => none

/-- scanFirst finds the leftmost position of `s` where the positional
pattern `pat` matches, the search-order semantics of a JavaScript regex;
it returns (text before the match, match data, remainder). -/
def scanFirst {α : Type} (pat : Str → Option (α × Str)) : Str → Option (Str × α × Str)
  | [] =>
    match pat [] with
    | some (a, r) => some ([], a, r)
    | none => none
  | c :: cs =>
    match pat (c :: cs) with
    | some (a, r) => some ([], a, r)
    | none =>
      match scanFirst pat cs with
      | some (p, a, r) => some (c :: p, a, r)
      | none => none

/-- replaceFirstBy models JavaScript `s.replace(re, fn)` for a non-global
regex `re` modelled by `pat`: only the first (leftmost) match is replaced
by `repl` applied to the match data, and when there is no match the string
is returned unchanged. -/
def replaceFirstBy {α : Type} (pat : Str → Option (α × Str)) (repl : α → Str) (s : Str) : Str :=
  match scanFirst pat s with
  | some (p, a, r) => p ++ repl a ++ r
  | none => s

/-- upgradeRepl embeds the replacement callback of the upgrade branch of
`addToMixExs`: it inspects the version capture for a leading `~>` and
rebuilds the tuple accordingly. -/
def upgradeRepl (name ver : Str) (mc : Str × Str) : Str :=
  if (dropLit ("~>").data mc.2).isSome then
    ("\x7b:").data ++ name ++ (", \"~> ").data ++ ver ++ ("\"\x7d").data
  else
    ("\x7b:").data ++ name ++ (", \"").data ++ ver ++ ("\"\x7d").data

/-- newDepText embeds the template `{:NAME, "~> VERSION"}` used for fresh
installs. -/
def newDepText (name ver : Str) : Str :=
  ("\x7b:").data ++ name ++ (", \"~> ").data ++ ver ++ ("\"\x7d").data

/-- applyPkg embeds one iteration of the `packages.forEach` loop of
`addToMixExs`: upgrades rewrite the first matching dependency tuple, any
other status inserts a new tuple after the first dependency-list opening
marker. -/
def applyPkg (pkg : HexPackage) (content : Str) : Str :=
  if pkg.status = some PkgStatus.upgrade then
    replaceFirstBy (depTupleAt pkg.name) (upgradeRepl pkg.name pkg.version) content
  else
    replaceFirstBy depsOpenAt
      (fun m => m ++ newDepText pkg.name pkg.version ++ (",\n    ").data) content

/-- addToMixExs embeds `addToMixExs` as a transformation of the manifest
text: the selected packages are applied in order to the file content. -/
def addToMixExs (packages : List HexPackage) (content : Str) : Str :=
  packages.foldl (fun c p => applyPkg p c) content

/-- editDistance is the classic single-character insert/delete/substitute
edit distance, stated by the spec as the meaning of the implementation's
dynamic program. -/
def editDistance : Str → Str → Nat
  | [], ys => ys.length
  | xs, [] => xs.length
  | x :: xs, y :: ys =>
    if x = y then editDistance xs ys
    else 1 + min (editDistance xs ys)
        (min (editDistance (x :: xs) ys) (editDistance xs (y :: ys)))
termination_by xs ys => xs.length + ys.length
decreasing_by
  all_goals simp_wf
  all_goals omega

/-- buildRow embeds the inner loop of `levenshteinDistance` in `mod.ts`:
given the character `c = b.charAt(i-1)`, the remaining characters of `a`,
the cell to the left (`matrix[i][j-1]`), the diagonal cell
(`matrix[i-1][j-1]`) and the rest of the previous row starting at
`matrix[i-1][j]`, it produces the cells `matrix[i][j], ...` of the current
row. -/
def buildRow (c : Char) : Str → Nat → Nat → List Nat → List Nat
  | [], _, _, _ => []
  | _ :: _, _, _, [] => []
  | x :: xs, left, diag, up :: ups =>
    let cur := if c = x then diag else min (diag + 1) (min (left + 1) (up + 1))
    cur :: buildRow c xs cur up ups

/-- levRow embeds one iteration of the outer loop: row `i` starts with the
seed `matrix[i][0] = i` and is completed by the inner loop over `a`. -/
def levRow (c : Char) (a : Str) (i : Nat) (prev : List Nat) : List Nat :=
  match prev with
  | [] => [i]
  | diag :: ups => i :: buildRow c a i diag ups

/-- levLoop embeds the outer loop of `levenshteinDistance`, iterating over
the characters of `b` with the row index `i`. -/
def levLoop (a : Str) : Str → Nat → List Nat → List Nat
  | [], _, prev => prev
  | c :: cs, i, prev => levLoop a cs (i + 1) (levRow c a i prev)

/-- levenshteinDistance embeds `levenshteinDistance` of `mod.ts`: row 0 is
`0, 1, ..., a.length`, each further row is filled from the previous one,
and the result is `matrix[b.length][a.length]`. -/
def levenshteinDistance (a b : Str) : Nat :=
  (levLoop a b 1 (List.range (a.length + 1))).getD a.length 0

/-- toLowerStr models `s.toLowerCase()` characterwise. -/
def toLowerStr (s : Str) : Str :=
  s.map Char.toLower

/-- calculateRelevance embeds `calculateRelevance` of `mod.ts` over exact
rational arithmetic:
`1 - distance(lower(name), lower(searchedWord)) / max(len(name), len(searchedWord))`.
The rational value coincides with the JavaScript floating-point value
whenever the numerator is 0 and the denominator is nonzero, the only case
used below. -/
def calculateRelevance (name searchedWord : Str) : ℚ :=
  1 - (levenshteinDistance (toLowerStr name) (toLowerStr searchedWord) : ℚ) /
      (max name.length searchedWord.length : ℚ)

/-- strInits lists the nonempty prefixes of a string, shortest first. -/
def strInits : Str → List Str
  | [] => []
  | x :: xs => [x] :: (strInits xs).map (fun q => x :: q)

/-- rowSpec is the intended content of DP row `i`: cell `j` holds the edit
distance between the length-`j` prefix of `a` and the processed prefix
`bp` of `b`. -/
def rowSpec (a bp : Str) : List Nat :=
  bp.length :: (strInits a).map (fun p => editDistance p bp)


/-- mkInstallPkg is a fresh search candidate (status unset), as returned by
the registry search. -/
def mkInstallPkg (name ver : Str) : HexPackage :=
  { name := name, version := ver, status := none, currentVersion := none }

/-- mkUpgradePkg is a candidate classified for upgrade. -/
def mkUpgradePkg (name ver cur : Str) : HexPackage :=
  { name := name, version := ver, status := some PkgStatus.upgrade,
    currentVersion := some cur }

/-- sampleManifest is a small manifest with one exactly-pinned dependency. -/
def sampleManifest : Str :=
  ("defmodule Demo.MixProject do\n  defp deps do\n    [\n      \x7b:plug, \"1.14.0\"\x7d\n    ]\n  end\nend").data

/-- tildeManifest is a small manifest whose only dependency is pinned with
the range operator. -/
def tildeManifest : Str :=
  ("defmodule Demo.MixProject do\n  defp deps do\n    [\n      \x7b:pow, \"~> 1.0.0\"\x7d\n    ]\n  end\nend").data

/-- noMarkerManifest is a manifest without the dependency-list opening
marker. -/
def noMarkerManifest : Str :=
  ("defmodule Demo.MixProject do\n  def project do\n    []\n  end\nend").data

/-! Generic record and fold lemmas. -/

/-- Folding the parse step over lines equals folding the plain insertions
over the entries of the matching lines only. -/
theorem foldl_parseStep_filterMap (clean : Str → Str) :
    ∀ (l : List Str) (acc : List (Str × Str)),
      l.foldl (parseStep clean) acc
        = (l.filterMap (lineEntry clean)).foldl (fun deps kv => setKey deps kv.1 kv.2) acc := by
  intro l
  induction l with
  | nil => intro acc; rfl
  | cons x xs ih =>
    intro acc
    cases hx : lineEntry clean x with
    | none => simp [List.filterMap_cons, hx, ih, parseStep]
    | some b => simp [List.filterMap_cons, hx, ih, parseStep]

/-- Membership after a `setKey` comes from the new entry or the old record. -/
theorem setKey_mem :
    ∀ (deps : List (Str × Str)) (k v : Str) (q : Str × Str),
      q ∈ setKey deps k v → q = (k, v) ∨ q ∈ deps := by
  intro deps
  induction deps with
  | nil => intro k v q hq; simp [setKey] at hq; simp [hq]
  | cons kv rest ih =>
    intro k v q hq
    obtain ⟨k0, v0⟩ := kv
    simp only [setKey] at hq
    by_cases hk : k0 = k
    · rw [if_pos hk] at hq
      rcases List.mem_cons.mp hq with h1 | h2
      · subst hk; left; exact h1
      · right; exact List.mem_cons_of_mem _ h2
    · rw [if_neg hk] at hq
      rcases List.mem_cons.mp hq with h1 | h2
      · right; exact h1 ▸ List.mem_cons_self _ _
      · rcases ih k v q h2 with h3 | h4
        · left; exact h3
        · right; exact List.mem_cons_of_mem _ h4

/-- Membership in a record built by `buildRecord` comes from the entry list. -/
theorem buildRecord_mem_aux :
    ∀ (entries : List (Str × Str)) (acc : List (Str × Str)) (q : Str × Str),
      q ∈ entries.foldl (fun deps kv => setKey deps kv.1 kv.2) acc →
        q ∈ acc ∨ q ∈ entries := by
  intro entries
  induction entries with
  | nil => intro acc q hq; exact Or.inl hq
  | cons kv rest ih =>
    intro acc q hq
    simp only [List.foldl_cons] at hq
    rcases ih (setKey acc kv.1 kv.2) q hq with h1 | h2
    · rcases setKey_mem acc kv.1 kv.2 q h1 with h3 | h4
      · right; rw [h3]; exact List.mem_cons_self _ _
      · left; exact h4
    · right; exact List.mem_cons_of_mem _ h2

/-- Record membership implies entry-list membership. -/
theorem buildRecord_mem (entries : List (Str × Str)) (q : Str × Str)
    (hq : q ∈ buildRecord entries) : q ∈ entries := by
  rcases buildRecord_mem_aux entries [] q hq with h | h
  · cases h
  · exact h

/-- parseLocks builds its record from exactly the matching lines. -/
theorem parseLocks_eq_buildRecord (clean : Str → Str) (out : Str) :
    parseLocks clean out
      = buildRecord ((splitLines out).filterMap (lineEntry clean)) := by
  unfold parseLocks buildRecord
  exact foldl_parseStep_filterMap clean (splitLines out) []

/-! Soundness of the positional pattern matchers. -/

/-- span1 splits its input. -/
theorem span1_sound (p : Char → Bool) (s t r : Str) (h : span1 p s = some (t, r)) :
    s = t ++ r := by
  cases s with
  | nil => simp [span1] at h
  | cons c cs =>
    simp only [span1] at h
    by_cases hc : p c
    · rw [if_pos hc] at h
      simp only [Option.some.injEq, Prod.mk.injEq] at h
      obtain ⟨h1, h2⟩ := h
      rw [← h1, ← h2]
      simp [List.takeWhile_append_dropWhile]
    · rw [if_neg hc] at h; cases h

/-- dropLit splits its input. -/
theorem dropLit_sound :
    ∀ (lit s r : Str), dropLit lit s = some r → s = lit ++ r := by
  intro lit
  induction lit with
  | nil => intro s r h; simp only [dropLit, Option.some.injEq] at h; simp [h]
  | cons l ls ih =>
    intro s r h
    cases s with
    | nil => cases h
    | cons c cs =>
      simp only [dropLit] at h
      by_cases hc : c = l
      · rw [if_pos hc] at h
        subst hc
        simp [ih cs r h]
      · rw [if_neg hc] at h; cases h

/-- scanFirst on a match splits the string at the match position. -/
theorem scanFirst_sound {α : Type} (pat : Str → Option (α × Str)) :
    ∀ (s p : Str) (a : α) (r : Str), scanFirst pat s = some (p, a, r) →
      ∃ suf, s = p ++ suf ∧ pat suf = some (a, r) := by
  intro s
  induction s with
  | nil =>
    intro p a r h
    simp only [scanFirst] at h
    cases hp : pat [] with
    | none => rw [hp] at h; cases h
    | some v =>
      obtain ⟨a0, r0⟩ := v
      rw [hp] at h
      simp only [Option.some.injEq, Prod.mk.injEq] at h
      obtain ⟨h1, h2, h3⟩ := h
      subst h1; subst h2; subst h3
      exact ⟨[], rfl, hp⟩
  | cons c cs ih =>
    intro p a r h
    simp only [scanFirst] at h
    cases hp : pat (c :: cs) with
    | some v =>
      obtain ⟨a0, r0⟩ := v
      rw [hp] at h
      simp only [Option.some.injEq, Prod.mk.injEq] at h
      obtain ⟨h1, h2, h3⟩ := h
      subst h1; subst h2; subst h3
      exact ⟨c :: cs, rfl, hp⟩
    | none =>
      rw [hp] at h
      cases hs : scanFirst pat cs with
      | none => rw [hs] at h; cases h
      | some w =>
        obtain ⟨p0, a0, r0⟩ := w
        rw [hs] at h
        simp only [Option.some.injEq, Prod.mk.injEq] at h
        obtain ⟨h1, h2, h3⟩ := h
        subst h1; subst h2; subst h3
        obtain ⟨suf, hsplit, hpat⟩ := ih p0 a0 r0 hs
        exact ⟨suf, by rw [List.cons_append, ← hsplit], hpat⟩

/-- scanFirst fails only when the pattern matches at no position. -/
theorem scanFirst_none {α : Type} (pat : Str → Option (α × Str)) :
    ∀ (s : Str), scanFirst pat s = none →
      ∀ (p suf : Str), s = p ++ suf → pat suf = none := by
  intro s
  induction s with
  | nil =>
    intro h p suf hsplit
    cases p with
    | cons a as => cases hsplit
    | nil =>
      simp only [List.nil_append] at hsplit
      subst hsplit
      simp only [scanFirst] at h
      cases hpat : pat [] with
      | none => rfl
      | some v => obtain ⟨a0, r0⟩ := v; rw [hpat] at h; cases h
  | cons c cs ih =>
    intro h p suf hsplit
    simp only [scanFirst] at h
    cases hp : pat (c :: cs) with
    | some v => obtain ⟨a0, r0⟩ := v; rw [hp] at h; cases h
    | none =>
      rw [hp] at h
      cases hs : scanFirst pat cs with
      | some w => obtain ⟨p0, a0, r0⟩ := w; rw [hs] at h; cases h
      | none =>
        cases p with
        | nil =>
          simp only [List.nil_append] at hsplit
          subst hsplit
          exact hp
        | cons d ds =>
          rw [List.cons_append] at hsplit
          injection hsplit with hcd hrest
          exact ih hs ds suf hrest

/-- scanFirst finds the leftmost match: the pattern fails at every
strictly earlier position. -/
theorem scanFirst_leftmost {α : Type} (pat : Str → Option (α × Str)) :
    ∀ (s p : Str) (a : α) (r : Str), scanFirst pat s = some (p, a, r) →
      ∀ (q suf : Str), s = q ++ suf → q.length < p.length → pat suf = none := by
  intro s
  induction s with
  | nil =>
    intro p a r h q suf hsplit hlen
    simp only [scanFirst] at h
    cases hp : pat [] with
    | none => rw [hp] at h; cases h
    | some v =>
      obtain ⟨a0, r0⟩ := v
      rw [hp] at h
      simp only [Option.some.injEq, Prod.mk.injEq] at h
      obtain ⟨h1, _, _⟩ := h
      rw [← h1] at hlen
      simp at hlen
  | cons c cs ih =>
    intro p a r h q suf hsplit hlen
    simp only [scanFirst] at h
    cases hp : pat (c :: cs) with
    | some v =>
      obtain ⟨a0, r0⟩ := v
      rw [hp] at h
      simp only [Option.some.injEq, Prod.mk.injEq] at h
      obtain ⟨h1, _, _⟩ := h
      rw [← h1] at hlen
      simp at hlen
    | none =>
      rw [hp] at h
      cases hs : scanFirst pat cs with
      | none => rw [hs] at h; cases h
      | some w =>
        obtain ⟨p0, a0, r0⟩ := w
        rw [hs] at h
        simp only [Option.some.injEq, Prod.mk.injEq] at h
        obtain ⟨h1, _, _⟩ := h
        cases q with
        | nil =>
          simp only [List.nil_append] at hsplit
          subst hsplit
          exact hp
        | cons d ds =>
          rw [List.cons_append] at hsplit
          injection hsplit with hcd hrest
          refine ih p0 a0 r0 hs ds suf hrest ?_
          rw [← h1] at hlen
          simpa using hlen

theorem semverAt_sound (s cap r : Str) (h : semverAt s = some (cap, r)) : s = cap ++ r := by
  unfold semverAt at h
  split at h
  · cases h
  next v1 d1 r1 h1 =>
    have hs1 := span1_sound isDigitCh s d1 r1 h1
    split at h
    next r2 =>
      split at h
      · cases h
      next v2 d2 r3 h2 =>
        have hs2 := span1_sound isDigitCh r2 d2 r3 h2
        split at h
        next r4 =>
          split at h
          · cases h
          next v3 d3 r5 h3 =>
            have hs3 := span1_sound isDigitCh r4 d3 r5 h3
            simp only [Option.some.injEq, Prod.mk.injEq] at h
            obtain ⟨hcap, hr⟩ := h
            subst hcap; subst hr
            subst hs1; subst hs2; subst hs3
            simp
        · cases h
    · cases h

theorem depTupleAt_sound (name s m cap rest : Str)
    (h : depTupleAt name s = some ((m, cap), rest)) : s = m ++ rest := by
  unfold depTupleAt at h
  split at h
  · cases h
  next r1 h1 =>
    have hs1 := dropLit_sound _ s r1 h1
    split at h
    next r3 heq =>
      split at h
      · cases h
      next v2 ver r4 h2 =>
        have hs2 := semverAt_sound r3 ver r4 h2
        split at h
        next rest0 =>
          simp only [Option.some.injEq, Prod.mk.injEq] at h
          obtain ⟨⟨hm, hcap⟩, hr⟩ := h
          subst hm; subst hcap; subst hr
          have hr1 : r1 = r1.takeWhile jsSpace ++ ('"' :: r3) := by
            conv_lhs => rw [← List.takeWhile_append_dropWhile jsSpace r1]
            rw [heq]
          conv_lhs => rw [hs1, hr1, hs2]
          simp
        next rest0 =>
          simp only [Option.some.injEq, Prod.mk.injEq] at h
          obtain ⟨⟨hm, hcap⟩, hr⟩ := h
          subst hm; subst hcap; subst hr
          have hr1 : r1 = r1.takeWhile jsSpace ++ ('"' :: r3) := by
            conv_lhs => rw [← List.takeWhile_append_dropWhile jsSpace r1]
            rw [heq]
          conv_lhs => rw [hs1, hr1, hs2]
          simp
        · cases h
    · cases h

theorem depsOpenAt_sound (s m rest : Str)
    (h : depsOpenAt s = some (m, rest)) : s = m ++ rest := by
  unfold depsOpenAt at h
  split at h
  · cases h
  next r1 h1 =>
    have hs1 := dropLit_sound _ s r1 h1
    split at h
    next r2 heq =>
      simp only [Option.some.injEq, Prod.mk.injEq] at h
      obtain ⟨hm, hr⟩ := h
      subst hm; subst hr
      have hr1 : r1 = r1.takeWhile jsSpace ++ ('[' :: r2) := by
        conv_lhs => rw [← List.takeWhile_append_dropWhile jsSpace r1]
        rw [heq]
      conv_lhs => rw [hs1, hr1]
      conv_lhs => rw [← List.takeWhile_append_dropWhile jsSpace r2]
      simp
    · cases h

/-- editDistance from the empty string is the length. -/
theorem editDistance_nil_left (ys : Str) : editDistance [] ys = ys.length := by
  simp [editDistance]

/-- editDistance to the empty string is the length. -/
theorem editDistance_nil_right (xs : Str) : editDistance xs [] = xs.length := by
  cases xs <;> simp [editDistance]

/-- Unfolding equation of editDistance on two nonempty strings. -/
theorem editDistance_cons_cons (x y : Char) (xs ys : Str) :
    editDistance (x :: xs) (y :: ys) =
      if x = y then editDistance xs ys
      else 1 + min (editDistance xs ys)
          (min (editDistance (x :: xs) ys) (editDistance xs (y :: ys))) := by
  rw [editDistance]

/-- Strong-induction core of the last-character recurrence of editDistance. -/
theorem editDistance_snoc_aux :
    ∀ (n : Nat) (xs ys : Str), xs.length + ys.length ≤ n → ∀ (x y : Char),
      editDistance (xs ++ [x]) (ys ++ [y]) =
        if x = y then editDistance xs ys
        else 1 + min (editDistance xs ys)
            (min (editDistance (xs ++ [x]) ys) (editDistance xs (ys ++ [y]))) := by
  intro n
  induction n with
  | zero =>
    intro xs ys hlen x y
    cases xs with
    | cons a as => simp at hlen
    | nil =>
      cases ys with
      | cons b bs => simp at hlen
      | nil =>
        simp only [List.nil_append]
        rw [editDistance_cons_cons]
  | succ n ih =>
    intro xs ys hlen x y
    cases xs with
    | nil =>
      cases ys with
      | nil =>
        simp only [List.nil_append]
        rw [editDistance_cons_cons]
      | cons v vs =>
        simp only [List.length_nil, List.length_cons] at hlen
        have ihx := ih [] vs (by simp; omega) x y
        simp only [List.nil_append] at ihx
        simp only [List.nil_append, List.cons_append]
        rw [editDistance_cons_cons x v [] (vs ++ [y])]
        rw [ihx]
        rw [editDistance_cons_cons x v [] vs]
        simp only [editDistance_nil_left, List.length_append, List.length_cons,
          List.length_nil]
        split_ifs <;> omega
    | cons u us =>
      cases ys with
      | nil =>
        simp only [List.length_nil, List.length_cons] at hlen
        have ihx := ih us [] (by simp; omega) x y
        simp only [List.nil_append] at ihx
        simp only [List.nil_append, List.cons_append]
        rw [editDistance_cons_cons u y (us ++ [x]) []]
        rw [ihx]
        rw [editDistance_cons_cons u y us []]
        simp only [editDistance_nil_right, List.length_append, List.length_cons,
          List.length_nil]
        split_ifs <;> omega
      | cons v vs =>
        simp only [List.length_cons] at hlen
        have ih1 := ih us vs (by omega) x y
        have ih2 := ih (u :: us) vs (by simp; omega) x y
        have ih3 := ih us (v :: vs) (by simp; omega) x y
        simp only [List.cons_append] at ih2 ih3 ⊢
        rw [editDistance_cons_cons u v (us ++ [x]) (vs ++ [y])]
        rw [editDistance_cons_cons u v us vs]
        rw [editDistance_cons_cons u v (us ++ [x]) vs]
        rw [editDistance_cons_cons u v us (vs ++ [y])]
        rw [ih1, ih2, ih3]
        split_ifs <;>
          first
            | rfl
            | (simp only [min_add_add_left]; congr 1; congr 1; ac_rfl)

/-- Last-character recurrence of editDistance, mirroring the
first-character defining equations. -/
theorem editDistance_snoc (xs ys : Str) (x y : Char) :
    editDistance (xs ++ [x]) (ys ++ [y]) =
      if x = y then editDistance xs ys
      else 1 + min (editDistance xs ys)
          (min (editDistance (xs ++ [x]) ys) (editDistance xs (ys ++ [y]))) :=
  editDistance_snoc_aux (xs.length + ys.length) xs ys (Nat.le_refl _) x y

/-- editDistance of a string to itself is zero. -/
theorem editDistance_self : ∀ (xs : Str), editDistance xs xs = 0 := by
  intro xs
  induction xs with
  | nil => rw [editDistance_nil_left]; rfl
  | cons x xs ih => rw [editDistance_cons_cons]; simp [ih]

/-- Zero editDistance forces equal strings. -/
theorem editDistance_eq_zero :
    ∀ (xs ys : Str), editDistance xs ys = 0 → xs = ys := by
  intro xs
  induction xs with
  | nil =>
    intro ys h
    rw [editDistance_nil_left] at h
    exact (List.length_eq_zero.mp h).symm
  | cons x xs ih =>
    intro ys h
    cases ys with
    | nil => rw [editDistance_nil_right] at h; simp at h
    | cons y ys2 =>
      rw [editDistance_cons_cons] at h
      by_cases hxy : x = y
      · rw [if_pos hxy] at h
        rw [hxy, ih ys2 h]
      · rw [if_neg hxy] at h
        omega

/-- The inner loop turns the row of distances to the processed prefix `bp`
into the row of distances to `bp ++ [c]`. -/
theorem buildRow_spec (c : Char) :
    ∀ (as p bp : Str),
      buildRow c as (editDistance p (bp ++ [c])) (editDistance p bp)
          ((strInits as).map (fun q => editDistance (p ++ q) bp))
        = (strInits as).map (fun q => editDistance (p ++ q) (bp ++ [c])) := by
  intro as
  induction as with
  | nil => intro p bp; rfl
  | cons x xs ih =>
    intro p bp
    have ih2 := ih (p ++ [x]) bp
    simp only [List.append_assoc, List.cons_append, List.nil_append] at ih2
    simp only [strInits, List.map_cons, List.map_map, Function.comp_def]
    rw [buildRow]
    have hcur :
        (if c = x then editDistance p bp
          else min (editDistance p bp + 1)
            (min (editDistance p (bp ++ [c]) + 1) (editDistance (p ++ [x]) bp + 1)))
          = editDistance (p ++ [x]) (bp ++ [c]) := by
      rw [editDistance_snoc p bp x c]
      split_ifs <;> first | rfl | omega | simp_all
    rw [hcur]
    exact congrArg (List.cons (editDistance (p ++ [x]) (bp ++ [c]))) ih2

/-- One outer-loop iteration maps the row for `bp` to the row for
`bp ++ [c]`. -/
theorem levRow_spec (c : Char) (a bp : Str) :
    levRow c a (bp.length + 1) (rowSpec a bp) = rowSpec a (bp ++ [c]) := by
  have h := buildRow_spec c a [] bp
  simp only [List.nil_append, editDistance_nil_left, List.length_append,
    List.length_cons, List.length_nil] at h
  simp only [rowSpec, levRow]
  rw [h]
  simp [List.length_append]

/-- Row 0 of the matrix is the row of distances to the empty prefix. -/
theorem range_eq_rowSpec_nil : ∀ (a : Str), List.range (a.length + 1) = rowSpec a [] := by
  intro a
  induction a with
  | nil => rfl
  | cons x xs ih =>
    simp only [List.length_cons]
    rw [List.range_succ_eq_map, ih]
    simp only [rowSpec, strInits, List.map_cons, List.map_map, Function.comp_def,
      List.length_nil, editDistance_nil_right, List.length_cons, Nat.succ_eq_add_one]

/-- The outer loop computes the row for the whole of `b`. -/
theorem levLoop_spec (a : Str) :
    ∀ (bs bp : Str), levLoop a bs (bp.length + 1) (rowSpec a bp) = rowSpec a (bp ++ bs) := by
  intro bs
  induction bs with
  | nil => intro bp; simp [levLoop]
  | cons c cs ih =>
    intro bp
    rw [levLoop, levRow_spec c a bp]
    have h := ih (bp ++ [c])
    simp only [List.length_append, List.length_cons, List.length_nil,
      List.append_assoc, List.cons_append, List.nil_append] at h
    exact h

/-- Element `xs.length` of the mapped nonempty-inits list is the image of
the whole string. -/
theorem strInits_map_getD :
    ∀ (xs : Str) (x : Char) (f : Str → Nat),
      ((strInits (x :: xs)).map f).getD xs.length 0 = f (x :: xs) := by
  intro xs
  induction xs with
  | nil => intro x f; rfl
  | cons y ys ih =>
    intro x f
    rw [show strInits (x :: y :: ys) = [x] :: (strInits (y :: ys)).map (fun q => x :: q) from rfl]
    rw [List.map_cons, List.map_map]
    simp only [List.length_cons]
    rw [List.getD_cons_succ]
    exact ih y (f ∘ (fun q => x :: q))

/-- Reading the final cell of the spec row gives the edit distance. -/
theorem rowSpec_getD (a bp : Str) : (rowSpec a bp).getD a.length 0 = editDistance a bp := by
  cases a with
  | nil => simp [rowSpec, editDistance_nil_left]
  | cons x xs =>
    simp only [rowSpec, List.length_cons]
    rw [List.getD_cons_succ]
    exact strInits_map_getD xs x (fun p => editDistance p bp)

/-- The implementation's dynamic program computes the classic edit
distance. -/
theorem levenshteinDistance_eq_editDistance (a b : Str) :
    levenshteinDistance a b = editDistance a b := by
  unfold levenshteinDistance
  rw [range_eq_rowSpec_nil a]
  have h := levLoop_spec a b []
  simp only [List.length_nil, List.nil_append, Nat.zero_add] at h
  rw [h]
  exact rowSpec_getD a b

/-- C6: for all strings a and b, the levenshteinDistance function in the
Deno implementation returns exactly the classic single-character
insert/delete/substitute edit distance between a and b; in particular it
returns 0 if and only if a and b are identical. -/
theorem c6_levenshtein_classic (a b : Str) :
    levenshteinDistance a b = editDistance a b ∧
    (levenshteinDistance a b = 0 ↔ a = b) := by
  refine ⟨levenshteinDistance_eq_editDistance a b, ?_, ?_⟩
  · intro h
    rw [levenshteinDistance_eq_editDistance a b] at h
    exact editDistance_eq_zero a b h
  · intro h
    subst h
    rw [levenshteinDistance_eq_editDistance a a]
    exact editDistance_self a

/-- Witness for C6 at a concrete pair of strings. -/
theorem c6_levenshtein_classic_witness :
    levenshteinDistance ("kitten").data ("sitting").data
      = editDistance ("kitten").data ("sitting").data :=
  (c6_levenshtein_classic ("kitten").data ("sitting").data).1

/-- C9: for every non-empty package name, calculateRelevance(name, name) is
exactly 1. -/
theorem c9_relevance_self (name : Str) (h : name ≠ []) :
    calculateRelevance name name = 1 := by
  unfold calculateRelevance
  rw [levenshteinDistance_eq_editDistance, editDistance_self]
  simp

/-- Witness for C9 at the name pow. -/
theorem c9_relevance_self_witness :
    ("pow").data ≠ ([] : Str) ∧ calculateRelevance ("pow").data ("pow").data = 1 :=
  ⟨by decide, c9_relevance_self ("pow").data (by decide)⟩

/-- C8: parseMixExs maps exactly those lines matching the locked-at pattern
into entries (parenthesis-stripped name to version), silently skipping
every non-matching line without failing; output with zero matching lines
yields an empty mapping. -/
theorem c8_parse_locked_lines (out : Str) :
    parseMixExsDeno (CmdResult.success out)
        = buildRecord ((splitLines out).filterMap (lineEntry cleanDeno)) ∧
    ((splitLines out).filterMap (lineEntry cleanDeno) = [] →
      parseMixExsDeno (CmdResult.success out) = []) ∧
    (∀ nm ver : Str, (nm, ver) ∈ parseMixExsDeno (CmdResult.success out) →
      ∃ line, line ∈ splitLines out ∧ lineEntry cleanDeno line = some (nm, ver)) := by
  have h1 : parseMixExsDeno (CmdResult.success out) = parseLocks cleanDeno out := rfl
  refine ⟨?_, ?_, ?_⟩
  · rw [h1]
    exact parseLocks_eq_buildRecord cleanDeno out
  · intro h
    rw [h1, parseLocks_eq_buildRecord cleanDeno out, h]
    rfl
  · intro nm ver hmem
    rw [h1, parseLocks_eq_buildRecord cleanDeno out] at hmem
    rcases List.mem_filterMap.mp (buildRecord_mem _ _ hmem) with ⟨line, hline, hentry⟩
    exact ⟨line, hline, hentry⟩

/-- Witness for C8: output with zero matching lines yields the empty
mapping. -/
theorem c8_parse_locked_lines_witness :
    parseMixExsDeno (CmdResult.success ("Resolving Hex dependencies...\nno deps\n").data) = [] :=
  (c8_parse_locked_lines ("Resolving Hex dependencies...\nno deps\n").data).2.1 (by decide)

/-- C7 counterexample: in the node implementation, a launch failure whose
error object carries no stderr string makes the catch block itself raise a
TypeError instead of returning the empty mapping. -/
theorem c7_launch_failure_cex :
    parseMixExsNode (CmdResult.failure { stderr := none }) = Except.error JsExn.typeError := rfl

/-- C7 amended: the Deno implementation returns the empty mapping for every
thrown command error; the node implementation returns the empty mapping for
every thrown error that carries a stderr string. -/
theorem c7_failure_swallow_amended (e : ExecError) :
    parseMixExsDeno (CmdResult.failure e) = [] ∧
    (∀ s, e.stderr = some s → parseMixExsNode (CmdResult.failure e) = Except.ok []) := by
  refine ⟨rfl, ?_⟩
  intro s hs
  simp only [parseMixExsNode, hs]

/-- Witness for C7 at a concrete error carrying a stderr string. -/
theorem c7_failure_swallow_witness :
    parseMixExsDeno (CmdResult.failure { stderr := some ("boom").data }) = [] ∧
    parseMixExsNode (CmdResult.failure { stderr := some ("boom").data }) = Except.ok [] :=
  ⟨(c7_failure_swallow_amended { stderr := some ("boom").data }).1,
   (c7_failure_swallow_amended { stderr := some ("boom").data }).2 ("boom").data rfl⟩

/-- C2 counterexample: with a lock entry present (the empty string) and
different from the latest version, the code classifies the candidate as
installable rather than as an upgrade, because the JavaScript truthiness
guard treats the empty string like an absent entry. -/
theorem c2_empty_locked_cex :
    (categorizePkg [(("pow").data, [])] (mkInstallPkg ("pow").data ("1.0.2").data)).status
      ≠ some PkgStatus.upgrade := by decide

/-- C2 amended: an absent or empty-string lock entry leaves the candidate
unchanged (status unset); a non-empty entry equal to the latest version
yields status installed; a non-empty entry different from the latest
version yields status upgrade carrying the locked value. -/
theorem c2_classification_amended (existingDeps : List (Str × Str)) (pkg : HexPackage) :
    (lookupDep existingDeps pkg.name = none → categorizePkg existingDeps pkg = pkg) ∧
    (lookupDep existingDeps pkg.name = some [] → categorizePkg existingDeps pkg = pkg) ∧
    (∀ v, lookupDep existingDeps pkg.name = some v → v ≠ [] →
      (v = pkg.version →
        categorizePkg existingDeps pkg
          = { pkg with status := some PkgStatus.installed, currentVersion := some v }) ∧
      (v ≠ pkg.version →
        categorizePkg existingDeps pkg
          = { pkg with status := some PkgStatus.upgrade, currentVersion := some v })) := by
  unfold categorizePkg
  refine ⟨?_, ?_, ?_⟩
  · intro h
    rw [h]
  · intro h
    rw [h]
    simp
  · intro v h hne
    rw [h]
    constructor
    · intro hv
      subst hv
      simp [hne]
    · intro hv
      simp [hne, hv]

/-- Witness for C2 at a concrete upgrade instance. -/
theorem c2_classification_witness :
    categorizePkg [(("pow").data, ("1.0.0").data)] (mkInstallPkg ("pow").data ("1.0.2").data)
      = { mkInstallPkg ("pow").data ("1.0.2").data with
          status := some PkgStatus.upgrade, currentVersion := some ("1.0.0").data } :=
  ((c2_classification_amended [(("pow").data, ("1.0.0").data)]
      (mkInstallPkg ("pow").data ("1.0.2").data)).2.2
    ("1.0.0").data (by decide) (by decide)).2 (by decide)

/-- C1: evaluated at a manifest whose dependency tuple for the selected
upgrade package is pinned with the range operator, addToMixExs leaves the
text unchanged: the upgrade pattern's version capture admits only digits,
so a range-operator pin never matches and the range-preserving replacement
branch is unreachable. -/
theorem c1_tilde_upgrade_noop :
    (∃ pre rest, tildeManifest
        = pre ++ ("\x7b:pow, \"~> 1.0.0\"\x7d").data ++ rest) ∧
    addToMixExs [mkUpgradePkg ("pow").data ("1.0.2").data ("1.0.0").data] tildeManifest
      = tildeManifest := by
  constructor
  · exact ⟨("defmodule Demo.MixProject do\n  defp deps do\n    [\n      ").data,
      ("\n    ]\n  end\nend").data, by decide⟩
  · rfl

/-- C3: for every manifest text and selected upgrade package, addToMixExs
either leaves the text unchanged (no substring matches the upgrade
pattern, no error raised) or rewrites exactly the leftmost substring
matching the upgrade pattern for that package, leaving every character
outside that substring unchanged. -/
theorem c3_upgrade_frame (name ver cur content : Str) :
    (scanFirst (depTupleAt name) content = none ∧
      addToMixExs [mkUpgradePkg name ver cur] content = content) ∨
    (∃ pre m cap rest,
      scanFirst (depTupleAt name) content = some (pre, (m, cap), rest) ∧
      content = pre ++ m ++ rest ∧
      addToMixExs [mkUpgradePkg name ver cur] content
        = pre ++ upgradeRepl name ver (m, cap) ++ rest ∧
      (∀ q suf, content = q ++ suf → q.length < pre.length →
        depTupleAt name suf = none)) := by
  have he : addToMixExs [mkUpgradePkg name ver cur] content
      = replaceFirstBy (depTupleAt name) (upgradeRepl name ver) content := rfl
  cases h : scanFirst (depTupleAt name) content with
  | none =>
    left
    refine ⟨rfl, ?_⟩
    rw [he]
    simp only [replaceFirstBy, h]
  | some w =>
    obtain ⟨pre, ⟨m, cap⟩, rest⟩ := w
    right
    obtain ⟨suf, hsplit, hpat⟩ := scanFirst_sound (depTupleAt name) content pre (m, cap) rest h
    have hms := depTupleAt_sound name suf m cap rest hpat
    refine ⟨pre, m, cap, rest, rfl, ?_, ?_, ?_⟩
    · rw [hsplit, hms]
      simp [List.append_assoc]
    · rw [he]
      simp only [replaceFirstBy, h]
    · intro q suf2 hq hlen
      exact scanFirst_leftmost (depTupleAt name) content pre (m, cap) rest h q suf2 hq hlen

/-- C4: for every manifest containing the dependency-list opening marker
and every selected package with status unset, addToMixExs inserts exactly
one new range-operator tuple immediately after the leftmost match of the
opening marker, leaving all text before and after unchanged. -/
theorem c4_insert_after_marker (name ver pre m rest content : Str)
    (h : scanFirst depsOpenAt content = some (pre, m, rest)) :
    content = pre ++ m ++ rest ∧
    addToMixExs [mkInstallPkg name ver] content
      = pre ++ m ++ (newDepText name ver ++ (",\n    ").data) ++ rest ∧
    (∀ q suf, content = q ++ suf → q.length < pre.length → depsOpenAt suf = none) := by
  have he : addToMixExs [mkInstallPkg name ver] content
      = replaceFirstBy depsOpenAt
          (fun mm => mm ++ newDepText name ver ++ (",\n    ").data) content := rfl
  obtain ⟨suf, hsplit, hpat⟩ := scanFirst_sound depsOpenAt content pre m rest h
  have hms := depsOpenAt_sound suf m rest hpat
  refine ⟨?_, ?_, ?_⟩
  · rw [hsplit, hms]
    simp [List.append_assoc]
  · rw [he]
    simp only [replaceFirstBy, h]
    simp [List.append_assoc]
  · intro q suf2 hq hlen
    exact scanFirst_leftmost depsOpenAt content pre m rest h q suf2 hq hlen

/-- Witness for C4: selecting pow at latest version 1.0.2 with no lock
info inserts the pow tuple right after the dependency-list opening
marker. -/
theorem c4_insert_after_marker_witness :
    addToMixExs [mkInstallPkg ("pow").data ("1.0.2").data] sampleManifest
      = ("defmodule Demo.MixProject do\n  ").data
        ++ ("defp deps do\n    [\n      ").data
        ++ (newDepText ("pow").data ("1.0.2").data ++ (",\n    ").data)
        ++ ("\x7b:plug, \"1.14.0\"\x7d\n    ]\n  end\nend").data :=
  (c4_insert_after_marker ("pow").data ("1.0.2").data
    ("defmodule Demo.MixProject do\n  ").data
    ("defp deps do\n    [\n      ").data
    ("\x7b:plug, \"1.14.0\"\x7d\n    ]\n  end\nend").data
    sampleManifest (by decide)).2.1

/-- C10: when no position of the manifest matches the dependency-list
opening pattern, addToMixExs applied to a selected package with status
unset returns the manifest text unchanged, raising no error; the first
conjunct records that the hypothesis means the pattern matches nowhere. -/
theorem c10_no_marker_noop (name ver content : Str)
    (h : scanFirst depsOpenAt content = none) :
    (∀ q suf : Str, content = q ++ suf → depsOpenAt suf = none) ∧
    addToMixExs [mkInstallPkg name ver] content = content := by
  have he : addToMixExs [mkInstallPkg name ver] content
      = replaceFirstBy depsOpenAt
          (fun mm => mm ++ newDepText name ver ++ (",\n    ").data) content := rfl
  constructor
  · exact scanFirst_none depsOpenAt content h
  · rw [he]
    simp only [replaceFirstBy, h]

/-- Witness for C10 at a manifest without the opening marker. -/
theorem c10_no_marker_noop_witness :
    addToMixExs [mkInstallPkg ("pow").data ("1.0.2").data] noMarkerManifest
      = noMarkerManifest :=
  (c10_no_marker_noop ("pow").data ("1.0.2").data noMarkerManifest (by decide)).2
